import Mathlib

/-!
Verification development for the comfyui-split-merge-video repository.

The repository contains two ComfyUI nodes:
  * `VideoSplitterNode.split_video` (src/nodes/splitter.py) splits a video
    into overlapping segments;
  * `VideoMergerNode.merge_videos` (src/nodes/merger.py) merges segment
    files back into one video with crossfades.

Python floats are modelled as rationals (ℚ); the moviepy codec collaborator
is treated as a black box, with only the pieces of its contract that the
specification states modelled explicitly.
-/

/-- Python `int(x)` applied to a float: truncation toward zero. -/
def pyInt (q : ℚ) : ℤ := if q < 0 then -(⌊-q⌋) else ⌊q⌋

/-- Python `list(range(0, stop, step))` for integer `stop`, `step` with
`step ≠ 0` (a zero step raises `ValueError` and is handled by the caller).
For positive `step` the values are `0, step, 2*step, …` while `< stop`;
for negative `step`, while `> stop`. -/
def pyRange (stop step : ℤ) : List ℤ :=
  if 0 < step then
    (List.range ((stop.toNat + step.toNat - 1) / step.toNat)).map
      (fun (k : ℕ) => (k : ℤ) * step)
  else if step < 0 then
    (List.range (((-stop).toNat + (-step).toNat - 1) / (-step).toNat)).map
      (fun (k : ℕ) => (k : ℤ) * step)
  else []

/-- The Interval Planner inside `VideoSplitterNode.split_video`
(src/nodes/splitter.py, lines 126-140):

    step = segment_length - overlap
    start_times = list(range(0, int(duration), int(step)))
    for i, start in enumerate(start_times):
        end = min(start + segment_length, duration)
        if end - start < 3:
            continue

Returns `none` when `int(step) = 0` (Python `range` raises `ValueError`),
otherwise the list of kept `(start, end)` intervals in loop order. -/
def split_plan (duration segment_length overlap : ℚ) : Option (List (ℚ × ℚ)) :=
  let step := segment_length - overlap
  if pyInt step = 0 then none
  else
    let starts := pyRange (pyInt duration) (pyInt step)
    some (starts.filterMap (fun (st : ℤ) =>
      let e := min ((st : ℚ) + segment_length) duration
      if e - (st : ℚ) < 3 then none else some ((st : ℚ), e)))

/-! ### Decimal formatting (Python f-strings used by the Segmenter) -/

/-- Decimal digits of a natural number, most significant first
(the digits of Python `str(n)` / `format` integer parts). -/
def natDec (n : ℕ) : List Char :=
  if n = 0 then ['0'] else ((Nat.digits 10 n).map Nat.digitChar).reverse

/-- Numeric value of a decimal digit character. -/
def digitVal (c : Char) : ℕ := c.toNat - 48

/-- Value of a most-significant-first list of decimal digit characters,
as Python `int` reads it. -/
def digitsToNat (cs : List Char) : ℕ :=
  cs.foldl (fun a c => 10 * a + digitVal c) 0

/-- Round to the nearest integer, ties to even: the rounding Python applies
when formatting a value with a fixed number of decimals. -/
def roundHalfEven (x : ℚ) : ℤ :=
  if x - ⌊x⌋ < 1 / 2 then ⌊x⌋
  else if 1 / 2 < x - ⌊x⌋ then ⌊x⌋ + 1
  else if Even ⌊x⌋ then ⌊x⌋ else ⌊x⌋ + 1

/-- Python `f"{q:05.1f}"` for a nonnegative value `q`: one decimal digit,
zero-padded on the left to a minimum total width of 5. -/
def fmt5 (q : ℚ) : List Char :=
  let n := (roundHalfEven (10 * q)).toNat
  let core := natDec (n / 10) ++ '.' :: natDec (n % 10)
  List.replicate (5 - core.length) '0' ++ core

/-- Python `f"{i:03d}"`: zero-padded to a minimum width of 3. -/
def pad3 (i : ℕ) : List Char :=
  List.replicate (3 - (natDec i).length) '0' ++ natDec i

/-- The Segmenter's output naming policy (src/nodes/splitter.py, line 145):
`f"{prefix_name}{i:03d}_{start:05.1f}-{end:05.1f}.mp4"`.
`start` is an integer start time and `e` the clamped end time, both
nonnegative. -/
def mkSegmentName (pre : List Char) (i : ℕ) (st e : ℚ) : List Char :=
  pre ++ pad3 i ++ '_' :: (fmt5 st ++ '-' :: (fmt5 e ++ ['.', 'm', 'p', '4']))

/-- The value a one-decimal format renders: `q` rounded to tenths.
`extract_time_info` recovers exactly this value from a formatted name. -/
def round1 (q : ℚ) : ℚ := (roundHalfEven (10 * q) : ℚ) / 10

/-- `VideoSplitterNode.split_video` (src/nodes/splitter.py, lines 126-163)
with the codec collaborator abstracted away: the list of segment file
names it writes and returns, in order. The loop index `i` comes from
`enumerate` and advances over dropped intervals as well. `none` models the
`ValueError` Python `range` raises when `int(step) = 0`. -/
def split_video_output (duration segment_length overlap : ℚ)
    (pre : List Char) : Option (List (List Char)) :=
  let step := segment_length - overlap
  if pyInt step = 0 then none
  else
    let starts := pyRange (pyInt duration) (pyInt step)
    some (starts.enum.filterMap (fun (p : ℕ × ℤ) =>
      let e := min ((p.2 : ℚ) + segment_length) duration
      if e - (p.2 : ℚ) < 3 then none
      else some (mkSegmentName pre p.1 (p.2 : ℚ) e)))

/-- Python `",".join(paths)` (src/nodes/splitter.py, line 163). -/
def joinComma : List (List Char) → List Char
  | [] => []
  | [x] => x
  | x :: y :: xs => x ++ ',' :: joinComma (y :: xs)

/-! ### The Merger's filename parser

`VideoMergerNode.extract_time_info` (src/nodes/merger.py, lines 81-85):

    match = re.search(r"_(\d+\.\d+)-(\d+\.\d+)\.mp4$", filename)
    if match:
        return float(match.group(1)), float(match.group(2))
    return None, None

`re.search` returns the leftmost match; the pattern is anchored at the end
of the string. Each `\d+` is followed by a character that is not a digit,
so the greedy repetition never needs to backtrack: taking the maximal run
of digits is exactly the regex semantics here. -/

/-- Maximal leading run of decimal digits, and the rest. -/
def spanDigits (cs : List Char) : List Char × List Char :=
  (cs.takeWhile Char.isDigit, cs.dropWhile Char.isDigit)

/-- Parse `\d+\.\d+` at the front of the input; returns the two digit
groups and the remaining input. -/
def parseNum (cs : List Char) : Option ((List Char × List Char) × List Char) :=
  let d1 := (spanDigits cs).1
  if d1 = [] then none
  else
    match (spanDigits cs).2 with
    | c :: r2 =>
      if c = '.' then
        let d2 := (spanDigits r2).1
        if d2 = [] then none else some ((d1, d2), (spanDigits r2).2)
      else none
    | [] => none

/-- Python `float` applied to a captured group `\d+\.\d+`. -/
def numVal (d1 d2 : List Char) : ℚ :=
  (digitsToNat d1 : ℚ) + (digitsToNat d2 : ℚ) / 10 ^ d2.length

/-- Match the whole pattern `_(\d+\.\d+)-(\d+\.\d+)\.mp4$` at the current
position, requiring it to consume the entire remaining input (the `$`
anchor). -/
def matchAt (cs : List Char) : Option (ℚ × ℚ) :=
  match cs with
  | c0 :: rest =>
    if c0 = '_' then
      match parseNum rest with
      | some ((a1, a2), r1) =>
        match r1 with
        | c1 :: r2 =>
          if c1 = '-' then
            match parseNum r2 with
            | some ((b1, b2), r3) =>
              if r3 = ['.', 'm', 'p', '4'] then
                some (numVal a1 a2, numVal b1 b2)
              else none
            | none => none
          else none
        | [] => none
      | none => none
    else none
  | [] => none

/-- `re.search`: try each start position from the left, return the first
match. -/
def searchTimes : List Char → Option (ℚ × ℚ)
  | [] => none
  | c :: cs =>
    match matchAt (c :: cs) with
    | some r => some r
    | none => searchTimes cs

/-- `VideoMergerNode.extract_time_info` on a filename, with the
`(None, None)` result modelled as `none`. -/
def extract_time_info (cs : List Char) : Option (ℚ × ℚ) := searchTimes cs

/-! ### Merger discovery, ordering and failure (src/nodes/merger.py) -/

/-- `os.path.basename`: the part of a path after the last `/`. -/
def basename (cs : List Char) : List Char :=
  (cs.reverse.takeWhile (fun c => c ≠ '/')).reverse

/-- A discovered segment: `Segment = namedtuple("Segment", ["path", "start", "end"])`
(src/nodes/merger.py, line 23). The source's `end` field is named `stop`
here because `end` is a Lean keyword. -/
structure Segment where
  path : List Char
  start : ℚ
  stop : ℚ
deriving DecidableEq, Repr

/-- Python `segments_paths.split(",")`: split on every comma; the result is
never empty (an input with no comma yields a one-element list). -/
def splitComma : List Char → List (List Char)
  | [] => [[]]
  | c :: cs =>
    match splitComma cs with
    | [] => [[]]
    | h :: t => if c = ',' then [] :: h :: t else (c :: h) :: t

/-- The discovery loop of `merge_videos` (src/nodes/merger.py, lines
112-122): skip paths that do not exist on the filesystem (modelled by the
predicate `ex`), parse `start`/`end` out of the basename, keep parsed
segments in input order. -/
def gatherSegments (ex : List Char → Bool) (paths : List (List Char)) :
    List Segment :=
  paths.filterMap (fun p =>
    if ex p then
      match extract_time_info (basename p) with
      | some (s, e) => some (Segment.mk p s e)
      | none => none
    else none)

/-- `segments.sort(key=lambda x: x.start)` (src/nodes/merger.py, line 124):
Python's stable sort by ascending start time. -/
def sortSegments (segs : List Segment) : List Segment :=
  segs.mergeSort (fun a b => a.start ≤ b.start)

/-- The discovery/ordering front end of `VideoMergerNode.merge_videos`
(src/nodes/merger.py, lines 98-127): split the comma-separated paths,
error if the list is empty, gather and sort segments, error if none are
valid, otherwise return the ordered sequence handed to the compositor. -/
def merge_videos_plan (ex : List Char → Bool) (segments_paths : List Char) :
    Except String (List Segment) :=
  let segment_paths := splitComma segments_paths
  if segment_paths = [] then Except.error "No segment paths provided"
  else
    let segments := sortSegments (gatherSegments ex segment_paths)
    if segments = [] then Except.error "No valid video segments found"
    else Except.ok segments

/-! ### Fade envelopes (src/nodes/merger.py, lines 68-79 and 134-150) -/

/-- `make_frame` inside `VideoMergerNode.create_opacity_mask`: the scalar
opacity it multiplies into an all-ones frame at clip time `t`.

    mask = np.ones((clip.h, clip.w))
    if fade_in and t < fade_duration:
        mask = mask * (t / fade_duration)
    elif fade_out and t > (clip.duration - fade_duration):
        mask = mask * ((clip.duration - t) / fade_duration)
    return mask
-/
def make_frame (fade_in fade_out : Bool) (fade_duration dur t : ℚ) : ℚ :=
  if fade_in = true ∧ t < fade_duration then t / fade_duration
  else if fade_out = true ∧ t > dur - fade_duration then
    (dur - t) / fade_duration
  else 1

/-- A loaded clip, reduced to what the fade logic touches: its duration and
its opacity mask as a function of clip time. A freshly loaded
`VideoFileClip` is fully opaque. -/
structure Clip where
  duration : ℚ
  mask : ℚ → ℚ

/-- `VideoMergerNode.create_opacity_mask`: the returned clip's mask frames
are produced by `make_frame` alone — the lambda `lambda gf, t:
make_frame(t)` passed to `fl` ignores `gf`, and `set_mask` replaces any
mask the clip already had. -/
def create_opacity_mask (c : Clip) (fade_in fade_out : Bool)
    (fade_duration : ℚ) : Clip :=
  Clip.mk c.duration (fun t => make_frame fade_in fade_out fade_duration c.duration t)

/-- The fade application in the `merge_videos` loop (src/nodes/merger.py,
lines 141-148) for segment `i` of `n`:

    if i > 0:
        clip = self.create_opacity_mask(clip, fade_in=True, fade_duration=fade_duration)
    if i < total_segments - 1:
        clip = self.create_opacity_mask(clip, fade_out=True, fade_duration=fade_duration)
-/
def applyMergeFades (n i : ℕ) (fade_duration : ℚ) (c : Clip) : Clip :=
  let c1 := if 0 < i then create_opacity_mask c true false fade_duration else c
  let c2 := if i < n - 1 then create_opacity_mask c1 false true fade_duration
            else c1
  c2

/-! ### The compositor contract (external collaborator) -/

/-- Modelled from the spec: the total duration of
`concatenate_videoclips(clips, method="compose", padding=p)`, the moviepy
collaborator the repository calls but does not contain. Per the spec's
contract, each clip after the first starts `padding` later than the
previous clip's scheduled end, and the output ends when the last clip
ends: "concatenate an ordered sequence of units with a specified negative
padding (time overlap) between adjacent units". `t` is the start time of
the next clip. -/
def composeEnd : List ℚ → ℚ → ℚ → ℚ
  | [], _, t => t
  | [d], _, t => t + d
  | d :: d2 :: ds, p, t => composeEnd (d2 :: ds) p (t + d + p)

/-- The total output duration of the merge: `merge_videos` hands the clips
to the compositor with `padding=-fade_duration`
(src/nodes/merger.py, lines 153-155). -/
def merged_duration (durations : List ℚ) (fade_duration : ℚ) : ℚ :=
  composeEnd durations (-fade_duration) 0

/-! ## Shared helper lemmas -/

/-- The comma split never produces an empty list of pieces. -/
theorem splitComma_ne_nil (cs : List Char) : splitComma cs ≠ [] := by
  cases cs with
  | nil => simp [splitComma]
  | cons c cs =>
    simp only [splitComma]
    cases splitComma cs with
    | nil => simp
    | cons h t =>
      by_cases hc : c = ','
      · simp [hc]
      · simp [hc]

/-- A sorted segment list is empty exactly when the input was. -/
theorem sortSegments_eq_nil_iff (l : List Segment) :
    sortSegments l = [] ↔ l = [] := by
  constructor
  · intro h
    have hp := List.mergeSort_perm l (fun a b => a.start ≤ b.start)
    rw [sortSegments] at h
    rw [h] at hp
    exact hp.symm.eq_nil
  · intro h
    rw [h, sortSegments, List.mergeSort_nil]

/-- `composeEnd` in closed form: starting at `t`, a nonempty list of clip
durations with padding `p` between adjacent clips ends at
`t + sum + (N - 1) * p`. -/
theorem composeEnd_eq : ∀ (ds : List ℚ) (p t : ℚ), ds ≠ [] →
    composeEnd ds p t = t + ds.sum + ((ds.length - 1 : ℕ) : ℚ) * p
  | [], _, _, h => absurd rfl h
  | [d], p, t, _ => by
    simp [composeEnd]
  | d :: d2 :: ds, p, t, _ => by
    have ih := composeEnd_eq (d2 :: ds) p (t + d + p) (by simp)
    rw [show composeEnd (d :: d2 :: ds) p t = composeEnd (d2 :: ds) p (t + d + p)
          from rfl, ih]
    simp only [List.length_cons, List.sum_cons, Nat.add_sub_cancel]
    push_cast
    ring

/-! ## Claims -/

/-- C2: the claim states that every interior segment carries both the
linear fade-in and fade-out ramps simultaneously (a trapezoidal envelope).
The code does not do this: `create_opacity_mask` builds its mask frames
with a lambda that ignores the underlying mask (`lambda gf, t:
make_frame(t)`) and `set_mask` replaces the existing mask, so the second
call (fade-out) of the merge loop discards the fade-in mask of an interior
segment. Concretely, for 3 segments with `fade_duration = 2` the interior
segment of duration 10 has the pure fade-out envelope; at `t = 1` its
opacity is 1, where the claimed trapezoid would give `1/2`. -/
theorem interior_fade_overwritten :
    (∀ t : ℚ, (applyMergeFades 3 1 2 (Clip.mk 10 (fun _ => 1))).mask t
      = make_frame false true 2 10 t) ∧
    (applyMergeFades 3 1 2 (Clip.mk 10 (fun _ => 1))).mask 1 = 1 ∧
    ((1 : ℚ) ≠ 1 / 2) := by
  refine ⟨fun t => rfl, ?_, by norm_num⟩
  show make_frame false true 2 10 1 = 1
  rw [make_frame]
  norm_num

/-- C3: for `duration=25, segment_length=10, overlap=2` the planner
computes `int(step) = 8`, generates start times `[0, 8, 16, 24]`, derives
the candidate intervals `(0,10), (8,18), (16,25), (24,25)`, drops the last
one because its length 1 is below 3, and emits exactly
`(0,10), (8,18), (16,25)` in that order. -/
theorem split_plan_scenario_25_10_2 :
    pyInt ((10 : ℚ) - 2) = 8 ∧
    pyRange (pyInt 25) 8 = [0, 8, 16, 24] ∧
    ([0, 8, 16, 24] : List ℤ).map
      (fun st => ((st : ℚ), min ((st : ℚ) + 10) 25)) =
      [(0, 10), (8, 18), (16, 25), (24, 25)] ∧
    min ((24 : ℚ) + 10) 25 - 24 < 3 ∧
    split_plan 25 10 2 = some [(0, 10), (8, 18), (16, 25)] := by
  refine ⟨by norm_num [pyInt], rfl, by norm_num [min_def], by norm_num [min_def], ?_⟩
  have h1 : (10 : ℚ) - 2 = 8 := by norm_num
  have h2 : pyInt 8 = 8 := rfl
  have h3 : pyInt 25 = 25 := rfl
  have h4 : pyRange 25 8 = [0, 8, 16, 24] := rfl
  simp only [split_plan, h1, h2, h3, h4]
  norm_num [min_def, List.filterMap_cons, List.filterMap_nil]

/-- C5: `merge_videos` hands the clips to the compositor with
`padding = -fade_duration`, so under the compositor contract the merged
output's total duration is the sum of the segment durations minus
`(N - 1) * fade_duration`. -/
theorem merged_duration_formula (ds : List ℚ) (fd : ℚ) (h : ds ≠ []) :
    merged_duration ds fd = ds.sum - ((ds.length - 1 : ℕ) : ℚ) * fd := by
  rw [merged_duration, composeEnd_eq ds (-fd) 0 h]
  ring

/-- Witness for C5 at the spec's scenario: three segments of durations
`10, 10, 9` with `fade_duration = 2` merge to a 25-second output. -/
theorem merged_duration_formula_witness :
    merged_duration [10, 10, 9] 2 =
      ([10, 10, 9] : List ℚ).sum - ((([10, 10, 9] : List ℚ).length - 1 : ℕ) : ℚ) * 2 ∧
    merged_duration [10, 10, 9] 2 = 25 := by
  have h := merged_duration_formula [10, 10, 9] 2 (by simp)
  refine ⟨h, ?_⟩
  rw [h]
  norm_num

/-- C6: whatever order the segment paths arrive in, the sequence handed to
the compositor is sorted by ascending start time recovered from the
filenames (and is a permutation of the discovered segments). -/
theorem merger_sorts_by_start (ex : List Char → Bool) (paths : List (List Char)) :
    List.Sorted (fun a b : Segment => a.start ≤ b.start)
      (sortSegments (gatherSegments ex paths)) ∧
    (sortSegments (gatherSegments ex paths)).Perm (gatherSegments ex paths) := by
  constructor
  · have hs := @List.sorted_mergeSort Segment
      (fun a b : Segment => decide (a.start ≤ b.start))
      (fun a b c hab hbc => by
        simp only [decide_eq_true_eq] at *
        exact le_trans hab hbc)
      (fun a b => by
        simp only [Bool.or_eq_true, decide_eq_true_eq]
        exact le_total a.start b.start)
      (gatherSegments ex paths)
    exact hs.imp (fun h => of_decide_eq_true h)
  · exact List.mergeSort_perm _ _

/-- Discovery over the single empty path (what an empty `segments_paths`
string splits into) finds no valid segment. -/
theorem gatherSegments_nil_path (ex : List Char → Bool) :
    gatherSegments ex [[]] = [] := by
  cases hex : ex ([] : List Char) with
  | false => simp [gatherSegments, hex]
  | true => simp [gatherSegments, hex, extract_time_info, basename, searchTimes]

/-- Any error the merge front end returns means discovery found no valid
segment, and carries the "No valid video segments found" message. -/
theorem merge_plan_error_shape (ex : List Char → Bool) (sp : List Char) (s : String)
    (hs : merge_videos_plan ex sp = Except.error s) :
    gatherSegments ex (splitComma sp) = [] ∧
    s = "No valid video segments found" := by
  simp only [merge_videos_plan] at hs
  rw [if_neg (splitComma_ne_nil sp)] at hs
  by_cases hnil : sortSegments (gatherSegments ex (splitComma sp)) = []
  · rw [if_pos hnil] at hs
    refine ⟨(sortSegments_eq_nil_iff _).mp hnil, ?_⟩
    injection hs with h
    exact h.symm
  · rw [if_neg hnil] at hs
    simp at hs

/-- Empty discovery produces exactly the "No valid video segments found"
error. -/
theorem merge_plan_error_of_gather_nil (ex : List Char → Bool) (sp : List Char)
    (h : gatherSegments ex (splitComma sp) = []) :
    merge_videos_plan ex sp = Except.error "No valid video segments found" := by
  simp only [merge_videos_plan]
  rw [if_neg (splitComma_ne_nil sp), h, sortSegments, List.mergeSort_nil,
    if_pos rfl]

/-- C7: if filename-pattern filtering leaves zero usable segments,
`merge_videos` fails with the "No valid video segments found" error before
any output is produced, and this is the only failure the discovery phase
can produce. -/
theorem merger_no_valid_segments_error (ex : List Char → Bool) (sp : List Char) :
    (gatherSegments ex (splitComma sp) = [] →
      merge_videos_plan ex sp = Except.error "No valid video segments found") ∧
    (∀ s, merge_videos_plan ex sp = Except.error s →
      gatherSegments ex (splitComma sp) = [] ∧
      s = "No valid video segments found") :=
  ⟨merge_plan_error_of_gather_nil ex sp, merge_plan_error_shape ex sp⟩

/-- Witness for C7: the empty segment path string yields the
"No valid video segments found" error. -/
theorem merger_no_valid_segments_error_witness :
    merge_videos_plan (fun _ => true) ("".data) =
      Except.error "No valid video segments found" :=
  (merger_no_valid_segments_error (fun _ => true) ("".data)).1 rfl

/-- C8: when the Interval Planner keeps zero intervals, `split_video`
raises no error and returns an empty list of segment paths (joined into
the empty string). -/
theorem split_zero_intervals_empty_result (d sl ov : ℚ) (pre : List Char)
    (hplan : split_plan d sl ov = some []) :
    split_video_output d sl ov pre = some [] ∧
    joinComma [] = ([] : List Char) := by
  refine ⟨?_, rfl⟩
  simp only [split_plan] at hplan
  simp only [split_video_output]
  by_cases h0 : pyInt (sl - ov) = 0
  · rw [if_pos h0] at hplan
    simp at hplan
  · rw [if_neg h0] at hplan
    rw [if_neg h0]
    rw [Option.some.injEq] at hplan
    rw [Option.some.injEq, List.filterMap_eq_nil_iff] at *
    intro p hp
    have hmem : p.2 ∈ pyRange (pyInt d) (pyInt (sl - ov)) := by
      rw [List.enum_eq_zip_range] at hp
      obtain ⟨i, st⟩ := p
      exact (List.of_mem_zip hp).2
    have hkeep := hplan p.2 hmem
    by_cases hc : min ((p.2 : ℚ) + sl) d - (p.2 : ℚ) < 3
    · rw [if_pos hc]
    · rw [if_neg hc] at hkeep
      simp at hkeep

/-- Witness for C8: a 2-second video with 10-second segments produces one
candidate interval, drops it (length 2 < 3), and returns the empty path
list without error. -/
theorem split_zero_intervals_empty_result_witness :
    split_plan 2 10 2 = some [] ∧
    (split_video_output 2 10 2 [] = some [] ∧
      joinComma [] = ([] : List Char)) := by
  have h : split_plan 2 10 2 = some [] := by
    have h1 : (10 : ℚ) - 2 = 8 := by norm_num
    have h2 : pyInt 8 = 8 := rfl
    have h3 : pyInt 2 = 2 := rfl
    have h4 : pyRange 2 8 = [0] := rfl
    simp only [split_plan, h1, h2, h3, h4]
    norm_num [min_def, List.filterMap_cons, List.filterMap_nil]
  exact ⟨h, split_zero_intervals_empty_result 2 10 2 [] h⟩

/-- C9: for positive `fade_duration` the fade-in envelope is `0` at `t = 0`,
follows the linear ramp `t / fade_duration` on `[0, fade_duration)`,
and is `1` from `t = fade_duration` on; the fade-out-only envelope
(a first segment's start edge) is `1` on the whole non-faded edge
`t ≤ dur - fade_duration`. -/
theorem fade_envelope_edges (fd dur : ℚ) (hfd : 0 < fd) :
    make_frame true false fd dur 0 = 0 ∧
    make_frame true false fd dur fd = 1 ∧
    (∀ t, t < fd → make_frame true false fd dur t = t / fd) ∧
    (∀ t, fd ≤ t → make_frame true false fd dur t = 1) ∧
    (∀ t, t ≤ dur - fd → make_frame false true fd dur t = 1) := by
  refine ⟨?_, ?_, ?_, ?_, ?_⟩
  · rw [make_frame, if_pos ⟨rfl, hfd⟩]
    exact zero_div fd
  · rw [make_frame, if_neg (fun hc => absurd hc.2 (lt_irrefl fd)),
      if_neg (by simp)]
  · intro t hlt
    rw [make_frame, if_pos ⟨rfl, hlt⟩]
  · intro t hge
    rw [make_frame, if_neg (fun hc => absurd hc.2 (not_lt.mpr hge)),
      if_neg (by simp)]
  · intro t hle
    rw [make_frame, if_neg (by simp),
      if_neg (fun hc => absurd hc.2 (not_lt.mpr hle))]

/-- Witness for C9 at `fade_duration = 2`, segment duration `10`: opacity
`0` at `t = 0` and `1/2` at `t = 1` for a faded-in segment. -/
theorem fade_envelope_edges_witness :
    (0 : ℚ) < 2 ∧
    make_frame true false 2 10 0 = 0 ∧
    make_frame true false 2 10 1 = 1 / 2 :=
  ⟨by norm_num, (fade_envelope_edges 2 10 (by norm_num)).1,
    (fade_envelope_edges 2 10 (by norm_num)).2.2.1 1 (by norm_num)⟩

/-- C10: `segments_paths.split(",")` always yields a non-empty list, so the
"No segment paths provided" branch of `merge_videos` is unreachable: the
only error the front end can raise is "No valid video segments found", and
the empty input string reaches exactly that error. -/
theorem comma_split_guard_unreachable (ex : List Char → Bool) (sp : List Char) :
    (∃ h t, splitComma sp = h :: t) ∧
    (∀ s, merge_videos_plan ex sp = Except.error s →
      s = "No valid video segments found") ∧
    merge_videos_plan ex ("".data) = Except.error "No valid video segments found" := by
  refine ⟨?_, ?_, ?_⟩
  · cases hsc : splitComma sp with
    | nil => exact absurd hsc (splitComma_ne_nil sp)
    | cons h t => exact ⟨h, t, rfl⟩
  · intro s hs
    exact (merge_plan_error_shape ex sp s hs).2
  · exact merge_plan_error_of_gather_nil ex ("".data)
      (gatherSegments_nil_path ex)

/-- Witness for C10: instantiated at the always-false existence check and
the empty path string; the error-message implication is discharged with
the error the empty string itself produces. -/
theorem comma_split_guard_unreachable_witness :
    (∃ h t, splitComma ("".data) = h :: t) ∧
    ("No valid video segments found" : String) = "No valid video segments found" ∧
    merge_videos_plan (fun _ => false) ("".data) =
      Except.error "No valid video segments found" :=
  ⟨(comma_split_guard_unreachable (fun _ => false) ("".data)).1,
    (comma_split_guard_unreachable (fun _ => false) ("".data)).2.1 _
      (comma_split_guard_unreachable (fun _ => false) ("".data)).2.2,
    (comma_split_guard_unreachable (fun _ => false) ("".data)).2.2⟩

/-! ## Round-trip machinery for C4 -/

/-- `takeWhile`/`dropWhile` on a concatenation whose first part satisfies
the predicate and whose second part starts with a failing element. -/
theorem takeWhile_dropWhile_append (p : Char → Bool) (l1 l2 : List Char)
    (h1 : ∀ c ∈ l1, p c = true)
    (h2 : ∀ c, l2.head? = some c → p c = false) :
    (l1 ++ l2).takeWhile p = l1 ∧ (l1 ++ l2).dropWhile p = l2 := by
  induction l1 with
  | nil =>
    simp only [List.nil_append]
    cases l2 with
    | nil => simp
    | cons c cs =>
      have hc := h2 c rfl
      simp [List.takeWhile_cons, List.dropWhile_cons, hc]
  | cons a l ih =>
    have ha := h1 a (List.mem_cons_self a l)
    have ih2 := ih (fun c hc => h1 c (List.mem_cons_of_mem a hc))
    simp [List.takeWhile_cons, List.dropWhile_cons, ha, ih2.1, ih2.2]

/-- Soundness of `parseNum`: a successful parse decomposes the input into
two nonempty digit groups around a dot, followed by the rest. -/
theorem parseNum_sound (cs d1 d2 r : List Char)
    (h : parseNum cs = some ((d1, d2), r)) :
    cs = d1 ++ '.' :: (d2 ++ r) ∧ d1 ≠ [] ∧ d2 ≠ [] ∧
    (∀ c ∈ d1, c.isDigit = true) ∧ (∀ c ∈ d2, c.isDigit = true) := by
  simp only [parseNum] at h
  by_cases e1 : (spanDigits cs).1 = []
  · simp [e1] at h
  · rw [if_neg e1] at h
    cases hr1 : (spanDigits cs).2 with
    | nil => rw [hr1] at h; exact absurd h (by simp)
    | cons c r2 =>
      rw [hr1] at h
      dsimp only [] at h
      by_cases hc : c = '.'
      · rw [if_pos hc] at h
        by_cases e2 : (spanDigits r2).1 = []
        · simp [e2] at h
        · rw [if_neg e2, Option.some.injEq, Prod.mk.injEq, Prod.mk.injEq] at h
          obtain ⟨⟨hd1, hd2⟩, hr⟩ := h
          subst hd1
          subst hd2
          subst hr
          subst hc
          refine ⟨?_, e1, e2, ?_, ?_⟩
          · have hcs : (spanDigits cs).1 ++ (spanDigits cs).2 = cs :=
              List.takeWhile_append_dropWhile Char.isDigit cs
            have hrr : (spanDigits r2).1 ++ (spanDigits r2).2 = r2 :=
              List.takeWhile_append_dropWhile Char.isDigit r2
            calc cs = (spanDigits cs).1 ++ (spanDigits cs).2 := hcs.symm
              _ = (spanDigits cs).1 ++ '.' :: r2 := by rw [hr1]
              _ = (spanDigits cs).1 ++
                  '.' :: ((spanDigits r2).1 ++ (spanDigits r2).2) := by rw [hrr]
          · intro c hc
            exact List.mem_takeWhile_imp hc
          · intro c hc
            exact List.mem_takeWhile_imp hc
      · rw [if_neg hc] at h
        exact absurd h (by simp)

/-- Completeness of `parseNum` on a well-shaped front: two nonempty digit
groups around a dot, with the rest starting in a non-digit. -/
theorem parseNum_of_shape (d1 d2 r : List Char)
    (h1 : d1 ≠ []) (h2 : d2 ≠ [])
    (hd1 : ∀ c ∈ d1, c.isDigit = true) (hd2 : ∀ c ∈ d2, c.isDigit = true)
    (hr : ∀ c, r.head? = some c → c.isDigit = false) :
    parseNum (d1 ++ '.' :: (d2 ++ r)) = some ((d1, d2), r) := by
  have hs1 := takeWhile_dropWhile_append Char.isDigit d1 ('.' :: (d2 ++ r)) hd1
    (fun c hc => by
      rw [List.head?_cons, Option.some.injEq] at hc
      rw [← hc]
      rfl)
  have hs2 := takeWhile_dropWhile_append Char.isDigit d2 r hd2 hr
  simp only [parseNum, spanDigits, hs1.1, hs1.2, if_neg h1, hs2.1, hs2.2,
    if_neg h2]
  simp

/-- `matchAt` succeeds on the exact tail shape the Segmenter's naming
policy produces, and recovers the two formatted values. -/
theorem matchAt_seam (a1 a2 b1 b2 : List Char)
    (ha1 : a1 ≠ []) (ha2 : a2 ≠ []) (hb1 : b1 ≠ []) (hb2 : b2 ≠ [])
    (hd1 : ∀ c ∈ a1, c.isDigit = true) (hd2 : ∀ c ∈ a2, c.isDigit = true)
    (hd3 : ∀ c ∈ b1, c.isDigit = true) (hd4 : ∀ c ∈ b2, c.isDigit = true) :
    matchAt ('_' :: (a1 ++ '.' :: (a2 ++ '-' ::
        (b1 ++ '.' :: (b2 ++ ['.', 'm', 'p', '4'])))))
      = some (numVal a1 a2, numVal b1 b2) := by
  have p2 := parseNum_of_shape b1 b2 ['.', 'm', 'p', '4'] hb1 hb2 hd3 hd4
    (fun c hc => by
      rw [List.head?_cons, Option.some.injEq] at hc
      rw [← hc]
      rfl)
  have p1 := parseNum_of_shape a1 a2 ('-' :: (b1 ++ '.' :: (b2 ++ ['.', 'm', 'p', '4'])))
    ha1 ha2 hd1 hd2
    (fun c hc => by
      rw [List.head?_cons, Option.some.injEq] at hc
      rw [← hc]
      rfl)
  simp only [matchAt, p1, p2]
  simp

/-- A successful `matchAt` on `c :: cs` forces every character of `cs` to
be a digit, a dot, a dash, or part of the trailing `.mp4`; in particular
`cs` contains no underscore. -/
theorem matchAt_no_underscore (c : Char) (cs : List Char) (v : ℚ × ℚ)
    (h : matchAt (c :: cs) = some v) : ('_' : Char) ∉ cs := by
  simp only [matchAt] at h
  by_cases hc : c = '_'
  · rw [if_pos hc] at h
    cases hp1 : parseNum cs with
    | none => rw [hp1] at h; exact absurd h (by simp)
    | some w =>
      obtain ⟨⟨a1, a2⟩, r1⟩ := w
      rw [hp1] at h
      dsimp only [] at h
      cases hr1 : r1 with
      | nil => rw [hr1] at h; exact absurd h (by simp)
      | cons c1 r2 =>
        rw [hr1] at h
        dsimp only [] at h
        by_cases hc1 : c1 = '-'
        · subst hc1
          rw [if_pos rfl] at h
          cases hp2 : parseNum r2 with
          | none => rw [hp2] at h; exact absurd h (by simp)
          | some w2 =>
            obtain ⟨⟨b1, b2⟩, r3⟩ := w2
            rw [hp2] at h
            dsimp only [] at h
            by_cases hr3 : r3 = ['.', 'm', 'p', '4']
            · obtain ⟨hcs, -, -, hda1, hda2⟩ := parseNum_sound cs a1 a2 r1 hp1
              obtain ⟨hr2, -, -, hdb1, hdb2⟩ := parseNum_sound r2 b1 b2 r3 hp2
              intro hmem
              rw [hcs, hr1, hr2, hr3] at hmem
              simp only [List.mem_append, List.mem_cons] at hmem
              rcases hmem with h1 | h2 | h3
              · exact absurd (hda1 _ h1) (by decide)
              · exact absurd h2 (by decide)
              rcases h3 with h3 | h4 | h5
              · exact absurd (hda2 _ h3) (by decide)
              · exact absurd h4 (by decide)
              rcases h5 with h5 | h6 | h7
              · exact absurd (hdb1 _ h5) (by decide)
              · exact absurd h6 (by decide)
              rcases h7 with h7 | h8
              · exact absurd (hdb2 _ h7) (by decide)
              · simp at h8
            · rw [if_neg hr3] at h
              exact absurd h (by simp)
        · rw [if_neg hc1] at h
          exact absurd h (by simp)
  · rw [if_neg hc] at h
    exact absurd h (by simp)

/-- `re.search` semantics: prefixing the searched string with anything
before a matching tail that contains the only underscore does not change
the result. -/
theorem searchTimes_append (P T : List Char) (v : ℚ × ℚ)
    (hT : matchAt T = some v) (hu : ('_' : Char) ∈ T) :
    searchTimes (P ++ T) = some v := by
  induction P with
  | nil =>
    cases T with
    | nil => simp at hu
    | cons c cs =>
      rw [List.nil_append, searchTimes, hT]
  | cons a P ih =>
    rw [List.cons_append, searchTimes]
    cases hm : matchAt (a :: (P ++ T)) with
    | some r =>
      exfalso
      exact matchAt_no_underscore a (P ++ T) r hm (List.mem_append_right P hu)
    | none => exact ih

/-- Decimal digit characters are digits. -/
theorem digitChar_isDigit (d : ℕ) (h : d < 10) :
    (Nat.digitChar d).isDigit = true := by
  interval_cases d <;> decide

/-- `digitVal` inverts `Nat.digitChar` on decimal digits. -/
theorem digitVal_digitChar (d : ℕ) (h : d < 10) :
    digitVal (Nat.digitChar d) = d := by
  interval_cases d <;> decide

/-- The decimal rendering of a natural number is never empty. -/
theorem natDec_ne_nil (n : ℕ) : natDec n ≠ [] := by
  rw [natDec]
  by_cases h : n = 0
  · simp [h]
  · rw [if_neg h]
    simp only [ne_eq, List.reverse_eq_nil_iff, List.map_eq_nil_iff]
    exact Nat.digits_ne_nil_iff_ne_zero.mpr h

/-- Every character of a decimal rendering is a digit. -/
theorem natDec_digits (n : ℕ) : ∀ c ∈ natDec n, c.isDigit = true := by
  intro c hc
  rw [natDec] at hc
  by_cases h : n = 0
  · rw [if_pos h] at hc
    simp only [List.mem_singleton] at hc
    rw [hc]
    decide
  · rw [if_neg h] at hc
    simp only [List.mem_reverse, List.mem_map] at hc
    obtain ⟨d, hd, rfl⟩ := hc
    exact digitChar_isDigit d (Nat.digits_lt_base (by norm_num) hd)

/-- Reading back a most-significant-first digit rendering with an
accumulator. -/
theorem foldl_digitVal (L : List ℕ) (h : ∀ d ∈ L, d < 10) (a : ℕ) :
    ((L.map Nat.digitChar).reverse).foldl (fun x c => 10 * x + digitVal c) a
      = a * 10 ^ L.length + Nat.ofDigits 10 L := by
  induction L generalizing a with
  | nil => simp [Nat.ofDigits]
  | cons d L ih =>
    rw [List.map_cons, List.reverse_cons, List.foldl_append,
      ih (fun x hx => h x (List.mem_cons_of_mem d hx)) a]
    simp only [List.foldl_cons, List.foldl_nil]
    rw [digitVal_digitChar d (h d (List.mem_cons_self d L)), Nat.ofDigits_cons,
      List.length_cons]
    ring

/-- `digitsToNat` inverts the decimal rendering. -/
theorem digitsToNat_natDec (n : ℕ) : digitsToNat (natDec n) = n := by
  by_cases h : n = 0
  · subst h
    rfl
  · rw [natDec, if_neg h, digitsToNat,
      foldl_digitVal _ (fun d hd => Nat.digits_lt_base (by norm_num) hd) 0]
    simp [Nat.ofDigits_digits]

/-- Leading zero padding does not change the parsed value. -/
theorem digitsToNat_replicate_zero (k : ℕ) (cs : List Char) :
    digitsToNat (List.replicate k '0' ++ cs) = digitsToNat cs := by
  induction k with
  | zero => simp
  | succ k ih =>
    rw [List.replicate_succ, List.cons_append, digitsToNat, List.foldl_cons]
    have hz : 10 * 0 + digitVal '0' = 0 := by decide
    rw [hz]
    exact ih

/-- A natural number below 10 renders as its single digit character. -/
theorem natDec_lt_ten (m : ℕ) (h : m < 10) : natDec m = [Nat.digitChar m] := by
  by_cases h0 : m = 0
  · subst h0
    rfl
  · rw [natDec, if_neg h0,
      Nat.digits_def' (by norm_num : 1 < 10) (Nat.pos_of_ne_zero h0),
      Nat.mod_eq_of_lt h, Nat.div_eq_of_lt h]
    simp

/-- Rounding a nonnegative value half-to-even stays nonnegative. -/
theorem roundHalfEven_nonneg (x : ℚ) (hx : 0 ≤ x) : 0 ≤ roundHalfEven x := by
  have h0 : (0 : ℤ) ≤ ⌊x⌋ := Int.floor_nonneg.mpr hx
  rw [roundHalfEven]
  split_ifs <;> omega

/-- The shape of `f"{q:05.1f}"` for nonnegative `q`: a nonempty all-digit
integer part (possibly zero-padded), a dot, a single digit; parsed back it
reads as `q` rounded to tenths. -/
theorem fmt5_shape (q : ℚ) (hq : 0 ≤ q) :
    ∃ d1 d2 : List Char, fmt5 q = d1 ++ '.' :: d2 ∧ d1 ≠ [] ∧ d2 ≠ [] ∧
      (∀ c ∈ d1, c.isDigit = true) ∧ (∀ c ∈ d2, c.isDigit = true) ∧
      numVal d1 d2 = round1 q := by
  have hnn : 0 ≤ roundHalfEven (10 * q) :=
    roundHalfEven_nonneg (10 * q) (by positivity)
  refine ⟨List.replicate
      (5 - (natDec ((roundHalfEven (10 * q)).toNat / 10) ++
        '.' :: natDec ((roundHalfEven (10 * q)).toNat % 10)).length) '0' ++
      natDec ((roundHalfEven (10 * q)).toNat / 10),
    natDec ((roundHalfEven (10 * q)).toNat % 10), ?_, ?_, ?_, ?_, ?_, ?_⟩
  · rw [fmt5, List.append_assoc]
  · simp [natDec_ne_nil]
  · exact natDec_ne_nil _
  · intro c hc
    rcases List.mem_append.mp hc with h1 | h2
    · rw [List.eq_of_mem_replicate h1]
      decide
    · exact natDec_digits _ c h2
  · exact natDec_digits _
  · rw [numVal, digitsToNat_replicate_zero, digitsToNat_natDec,
      natDec_lt_ten _ (Nat.mod_lt _ (by norm_num))]
    have hone : digitsToNat [Nat.digitChar ((roundHalfEven (10 * q)).toNat % 10)]
        = (roundHalfEven (10 * q)).toNat % 10 := by
      rw [digitsToNat, List.foldl_cons, List.foldl_nil]
      rw [digitVal_digitChar _ (Nat.mod_lt _ (by norm_num))]
      omega
    rw [hone, List.length_singleton, round1, pow_one]
    have h1 : ((roundHalfEven (10 * q)).toNat : ℤ) = roundHalfEven (10 * q) :=
      Int.toNat_of_nonneg hnn
    have hcast : (((roundHalfEven (10 * q)).toNat : ℕ) : ℚ)
        = ((roundHalfEven (10 * q) : ℤ) : ℚ) := by
      exact_mod_cast congrArg (fun z : ℤ => (z : ℚ)) h1
    rw [← hcast, eq_div_iff (by norm_num : (10 : ℚ) ≠ 0)]
    have hdm : ((roundHalfEven (10 * q)).toNat / 10) * 10
        + (roundHalfEven (10 * q)).toNat % 10 = (roundHalfEven (10 * q)).toNat := by
      omega
    rw [add_mul, div_mul_cancel₀ _ (by norm_num : (10 : ℚ) ≠ 0)]
    exact_mod_cast hdm

/-- C4: a filename produced by the Segmenter's naming policy
`{prefix}{i:03d}_{start:05.1f}-{end:05.1f}.mp4` is accepted by the
Merger's `extract_time_info` pattern — for any prefix — and the recovered
pair is exactly `(start, end)` as rendered by the fixed one-decimal
formatting. -/
theorem extract_roundtrip (pre : List Char) (i : ℕ) (st e : ℚ)
    (hst : 0 ≤ st) (he : 0 ≤ e) :
    extract_time_info (mkSegmentName pre i st e)
      = some (round1 st, round1 e) := by
  obtain ⟨a1, a2, hfa, ha1, ha2, hda1, hda2, hva⟩ := fmt5_shape st hst
  obtain ⟨b1, b2, hfb, hb1, hb2, hdb1, hdb2, hvb⟩ := fmt5_shape e he
  have hT := matchAt_seam a1 a2 b1 b2 ha1 ha2 hb1 hb2 hda1 hda2 hdb1 hdb2
  rw [hva, hvb] at hT
  have hsearch := searchTimes_append (pre ++ pad3 i)
    ('_' :: (a1 ++ '.' :: (a2 ++ '-' :: (b1 ++ '.' :: (b2 ++ ['.', 'm', 'p', '4'])))))
    (round1 st, round1 e) hT (List.mem_cons_self _ _)
  rw [extract_time_info, mkSegmentName, hfa, hfb]
  rw [← hsearch]
  simp only [List.append_assoc, List.cons_append]

/-- Witness for C4 at prefix `"segment_"`, index 0, `start = 0`,
`end = 10`. -/
theorem extract_roundtrip_witness :
    (0 : ℚ) ≤ 0 ∧ (0 : ℚ) ≤ 10 ∧
    extract_time_info (mkSegmentName ("segment_".data) 0 0 10)
      = some (round1 0, round1 10) :=
  ⟨le_refl 0, by norm_num,
    extract_roundtrip ("segment_".data) 0 0 10 (le_refl 0) (by norm_num)⟩

/-! ## Interval Planner analysis for C1 -/

/-- A `filterMap` over `range n` whose function keeps exactly the indices
below `m` is a `map` over `range (min n m)`. -/
theorem filterMap_range_eq_map_range {α : Type} (f : ℕ → α) (g : ℕ → Option α)
    (m n : ℕ) (h : ∀ k, g k = if k < m then some (f k) else none) :
    (List.range n).filterMap g = (List.range (min n m)).map f := by
  induction n with
  | zero => simp
  | succ n ih =>
    rw [List.range_succ, List.filterMap_append, ih]
    by_cases hnm : n < m
    · rw [min_eq_left (Nat.le_of_lt hnm), min_eq_left (Nat.succ_le_of_lt hnm),
        List.range_succ, List.map_append]
      simp [h n, hnm]
    · rw [min_eq_right (Nat.le_of_not_lt hnm), min_eq_right (by omega)]
      simp [h n, hnm]

/-- Python's integer start-time count `(D + s - 1) / s` counts exactly the
multiples of `s` below `D`. -/
theorem lt_ceil_div (s D k : ℕ) (hs : 0 < s) :
    k < (D + s - 1) / s ↔ k * s < D := by
  rw [Nat.lt_iff_add_one_le, Nat.le_div_iff_mul_le hs]
  have h : (k + 1) * s = k * s + s := by ring
  rw [h]
  generalize k * s = a
  omega

/-- Closed form of the Interval Planner for `segment_length ≥ 3`,
`overlap ≥ 0` and integer step at least 1: the kept intervals are exactly
`(k*s, min (k*s + segment_length, duration))` for the indices `k` whose
start lies in `[0, duration - 3]` and below the truncated duration. -/
theorem split_plan_keeps (d sl ov : ℚ) (hd : 0 < d) (hsl : 3 ≤ sl)
    (hov : 0 ≤ ov) (hstep : 1 ≤ sl - ov) :
    ∃ (s m : ℕ), 1 ≤ s ∧ (s : ℚ) ≤ sl ∧
      split_plan d sl ov = some ((List.range m).map (fun k =>
        (((k * s : ℕ) : ℚ), min (((k * s : ℕ) : ℚ) + sl) d))) ∧
      (∀ k : ℕ, k < m ↔ (((k * s : ℕ) : ℚ) ≤ d - 3 ∧ k * s < ⌊d⌋.toNat)) := by
  have hfl : (1 : ℤ) ≤ ⌊sl - ov⌋ := Int.le_floor.mpr (by exact_mod_cast hstep)
  set s : ℕ := (⌊sl - ov⌋).toNat with hsdef
  have hs1 : 1 ≤ s := by omega
  have hs0 : (0 : ℚ) < (s : ℚ) := by exact_mod_cast hs1
  have hsq : (s : ℚ) ≤ sl := by
    have h1 : ((s : ℤ) : ℚ) = ((⌊sl - ov⌋ : ℤ) : ℚ) := by
      rw [hsdef, Int.toNat_of_nonneg (by omega)]
    have h2 : ((⌊sl - ov⌋ : ℤ) : ℚ) ≤ sl - ov := Int.floor_le (sl - ov)
    have h3 : ((s : ℕ) : ℚ) = ((s : ℤ) : ℚ) := by push_cast; ring
    rw [h3, h1]
    linarith
  have hklt : ∀ k : ℕ,
      (k < (⌊(d - 3) / (s : ℚ)⌋ + 1).toNat ↔ ((k * s : ℕ) : ℚ) ≤ d - 3) := by
    intro k
    rw [Int.lt_toNat, Int.lt_iff_add_one_le, add_le_add_iff_right, Int.le_floor,
      le_div_iff₀ hs0]
    have hc : ((k : ℤ) : ℚ) * (s : ℚ) = ((k * s : ℕ) : ℚ) := by
      push_cast
      ring
    rw [hc]
  have hkn : ∀ k : ℕ, (k < (⌊d⌋.toNat + s - 1) / s ↔ k * s < ⌊d⌋.toNat) :=
    fun k => lt_ceil_div s (⌊d⌋.toNat) k (by omega)
  refine ⟨s, min ((⌊d⌋.toNat + s - 1) / s) ((⌊(d - 3) / (s : ℚ)⌋ + 1).toNat),
    hs1, hsq, ?_, ?_⟩
  · have hIstep : pyInt (sl - ov) = ((s : ℕ) : ℤ) := by
      rw [pyInt, if_neg (not_lt.mpr (by linarith : (0 : ℚ) ≤ sl - ov)), hsdef,
        Int.toNat_of_nonneg (by omega)]
    have hIdur : pyInt d = ((⌊d⌋.toNat : ℕ) : ℤ) := by
      rw [pyInt, if_neg (not_lt.mpr hd.le),
        Int.toNat_of_nonneg (Int.floor_nonneg.mpr hd.le)]
    have hne : pyInt (sl - ov) ≠ 0 := by
      rw [hIstep]
      exact_mod_cast by omega
    simp only [split_plan]
    rw [if_neg hne, Option.some.injEq]
    rw [hIstep, hIdur, pyRange,
      if_pos (by exact_mod_cast by omega : (0 : ℤ) < ((s : ℕ) : ℤ))]
    rw [Int.toNat_natCast, Int.toNat_natCast, List.filterMap_map]
    apply filterMap_range_eq_map_range
    intro k
    dsimp only [Function.comp]
    have hx : (((k : ℤ) * ((s : ℕ) : ℤ) : ℤ) : ℚ) = ((k * s : ℕ) : ℚ) := by
      push_cast
      ring
    rw [hx]
    set x : ℚ := ((k * s : ℕ) : ℚ) with hxdef
    have hmin : min (x + sl) d - x = min sl (d - x) := by
      rcases le_total (x + sl) d with h | h
      · rw [min_eq_left h, min_eq_left (by linarith)]
        ring
      · rw [min_eq_right h, min_eq_right (by linarith)]
    have hcond : (min (x + sl) d - x < 3) ↔ ¬ (x ≤ d - 3) := by
      rw [hmin]
      constructor
      · intro h hle
        rcases min_lt_iff.mp h with h1 | h1
        · linarith
        · linarith
      · intro h
        push_neg at h
        rw [min_lt_iff]
        right
        linarith
    by_cases hk : k < (⌊(d - 3) / (s : ℚ)⌋ + 1).toNat
    · rw [if_pos hk,
        if_neg (by rw [hcond]; push_neg; exact (hklt k).mp hk)]
    · rw [if_neg hk,
        if_pos (hcond.mpr (fun hle => hk ((hklt k).mpr hle)))]
  · intro k
    rw [Nat.lt_min, hkn k, hklt k]
    exact and_comm

/-- C1 (amended): for duration > 0, `segment_length ≥ 3`, `overlap ≥ 0`
and `segment_length - overlap ≥ 1` (so the truncated integer step is
positive and Python `range` does not fail), the planner emits
contiguous-or-overlapping intervals covering `[0, duration)` except for a
final remainder shorter than 3 seconds; every interval ends at
`min (start + segment_length, duration)`, so its length is at most
`segment_length`, with equality whenever `start + segment_length` fits in
the duration (not only for the last interval). -/
theorem split_plan_properties_amended (d sl ov : ℚ) (hd : 0 < d)
    (hsl : 3 ≤ sl) (hov : 0 ≤ ov) (hstep : 1 ≤ sl - ov) :
    ∃ ivs : List (ℚ × ℚ), split_plan d sl ov = some ivs ∧
      List.Chain' (fun a b : ℚ × ℚ => b.1 ≤ a.2) ivs ∧
      (∀ t : ℚ, 0 ≤ t → t < d →
        (∃ p ∈ ivs, p.1 ≤ t ∧ t < p.2) ∨ d - t < 3) ∧
      (∀ p ∈ ivs, p.2 = min (p.1 + sl) d ∧ p.2 - p.1 ≤ sl ∧
        (p.1 + sl ≤ d → p.2 - p.1 = sl)) := by
  obtain ⟨s, m, hs1, hsq, hplan, hmem⟩ := split_plan_keeps d sl ov hd hsl hov hstep
  set f : ℕ → ℚ × ℚ :=
    fun k => (((k * s : ℕ) : ℚ), min (((k * s : ℕ) : ℚ) + sl) d) with hf
  refine ⟨(List.range m).map f, hplan, ?_, ?_, ?_⟩
  · rw [List.chain'_map]
    cases m with
    | zero => simp
    | succ m0 =>
      rw [List.chain'_range_succ]
      intro k hk
      show (((k + 1) * s : ℕ) : ℚ) ≤ min (((k * s : ℕ) : ℚ) + sl) d
      have h1 := (hmem (k + 1)).mp (by omega)
      apply le_min
      · have he : ((k + 1) * s : ℕ) = k * s + s := by ring
        rw [he]
        push_cast
        linarith
      · linarith [h1.1]
  · intro t ht0 htd
    by_cases hrem : d - t < 3
    · right
      exact hrem
    · left
      push_neg at hrem
      have hsQ0 : (0 : ℚ) < (s : ℚ) := by exact_mod_cast hs1
      set k : ℕ := (⌊t / (s : ℚ)⌋).toNat with hkdef
      have hfl0 : (0 : ℤ) ≤ ⌊t / (s : ℚ)⌋ :=
        Int.floor_nonneg.mpr (div_nonneg ht0 hsQ0.le)
      have hkc : ((k : ℕ) : ℤ) = ⌊t / (s : ℚ)⌋ := by
        rw [hkdef, Int.toNat_of_nonneg hfl0]
      have h2 : ((k : ℕ) : ℚ) = ((⌊t / (s : ℚ)⌋ : ℤ) : ℚ) := by
        exact_mod_cast congrArg (fun z : ℤ => (z : ℚ)) hkc
      have hks_le : ((k * s : ℕ) : ℚ) ≤ t := by
        have h1 : ((⌊t / (s : ℚ)⌋ : ℤ) : ℚ) ≤ t / (s : ℚ) := Int.floor_le _
        calc ((k * s : ℕ) : ℚ) = ((k : ℕ) : ℚ) * (s : ℚ) := by push_cast; ring
          _ = ((⌊t / (s : ℚ)⌋ : ℤ) : ℚ) * (s : ℚ) := by rw [h2]
          _ ≤ (t / (s : ℚ)) * (s : ℚ) :=
              mul_le_mul_of_nonneg_right h1 hsQ0.le
          _ = t := by field_simp
      have hlt : t < ((k * s : ℕ) : ℚ) + (s : ℚ) := by
        have h1 : t / (s : ℚ) < ((⌊t / (s : ℚ)⌋ : ℤ) : ℚ) + 1 :=
          Int.lt_floor_add_one _
        calc t = (t / (s : ℚ)) * (s : ℚ) := by field_simp
          _ < (((⌊t / (s : ℚ)⌋ : ℤ) : ℚ) + 1) * (s : ℚ) :=
              mul_lt_mul_of_pos_right h1 hsQ0
          _ = ((k : ℕ) : ℚ) * (s : ℚ) + (s : ℚ) := by rw [h2]; ring
          _ = ((k * s : ℕ) : ℚ) + (s : ℚ) := by push_cast; ring
      have hkm : k < m := by
        rw [hmem k]
        constructor
        · linarith
        · have h4 : ((k * s : ℕ) : ℤ) + 3 ≤ ⌊d⌋ := by
            apply Int.le_floor.mpr
            have hmul : ((k : ℕ) : ℚ) * ((s : ℕ) : ℚ) = ((k * s : ℕ) : ℚ) := by
              push_cast
              ring
            push_cast
            rw [hmul]
            linarith
          have h5 : (0 : ℤ) ≤ ⌊d⌋ := Int.floor_nonneg.mpr hd.le
          omega
      refine ⟨f k, List.mem_map_of_mem f (List.mem_range.mpr hkm), hks_le, ?_⟩
      show t < min (((k * s : ℕ) : ℚ) + sl) d
      apply lt_min
      · linarith
      · exact htd
  · intro p hp
    rw [List.mem_map] at hp
    obtain ⟨k, hk, rfl⟩ := hp
    refine ⟨rfl, ?_, ?_⟩
    · show min (((k * s : ℕ) : ℚ) + sl) d - ((k * s : ℕ) : ℚ) ≤ sl
      linarith [min_le_left (((k * s : ℕ) : ℚ) + sl) d]
    · intro hle
      show min (((k * s : ℕ) : ℚ) + sl) d - ((k * s : ℕ) : ℚ) = sl
      rw [min_eq_left hle]
      ring

/-- Witness for C1 (amended) at `duration=25, segment_length=10,
overlap=2`. -/
theorem split_plan_properties_amended_witness :
    ((0 : ℚ) < 25 ∧ (3 : ℚ) ≤ 10 ∧ (0 : ℚ) ≤ 2 ∧ (1 : ℚ) ≤ 10 - 2) ∧
    (∃ ivs : List (ℚ × ℚ), split_plan 25 10 2 = some ivs ∧
      List.Chain' (fun a b : ℚ × ℚ => b.1 ≤ a.2) ivs ∧
      (∀ t : ℚ, 0 ≤ t → t < 25 →
        (∃ p ∈ ivs, p.1 ≤ t ∧ t < p.2) ∨ 25 - t < 3) ∧
      (∀ p ∈ ivs, p.2 = min (p.1 + 10) 25 ∧ p.2 - p.1 ≤ 10 ∧
        (p.1 + 10 ≤ 25 → p.2 - p.1 = 10))) :=
  ⟨⟨by norm_num, by norm_num, by norm_num, by norm_num⟩,
    split_plan_properties_amended 25 10 2 (by norm_num) (by norm_num)
      (by norm_num) (by norm_num)⟩

/-- C1 counterexample to the claim as stated (which quantifies over every
`duration > 0` and `segment_length > overlap ≥ 0`):

* at `duration=25, segment_length=10, overlap=9.5` the step truncates to
  `int(0.5) = 0` and Python `range` raises `ValueError` — no interval
  sequence is produced at all;
* at `duration=12, segment_length=8, overlap=5` the emitted sequence is
  `(0,8), (3,11), (6,12), (9,12)`: the third interval `(6,12)` is not the
  last one yet its length is `6 ≠ 8 = segment_length`;
* at `duration=25, segment_length=2, overlap=0` every candidate is
  dropped, so nothing of `[0, 25)` is covered even though the uncovered
  remainder is not shorter than 3 seconds. -/
theorem split_plan_claim_counterexample :
    split_plan 25 10 (19 / 2) = none ∧
    split_plan 12 8 5 = some [(0, 8), (3, 11), (6, 12), (9, 12)] ∧
    ((12 : ℚ) - 6 ≠ 8) ∧
    split_plan 25 2 0 = some [] ∧
    ¬ ((25 : ℚ) - 0 < 3) := by
  refine ⟨?_, ?_, by norm_num, ?_, by norm_num⟩
  · have h1 : (10 : ℚ) - 19 / 2 = 1 / 2 := by norm_num
    have h2 : pyInt (1 / 2) = 0 := by
      rw [pyInt, if_neg (by norm_num)]
      norm_num
    simp only [split_plan, h1, h2]
    simp
  · have h1 : (8 : ℚ) - 5 = 3 := by norm_num
    have h2 : pyInt 3 = 3 := rfl
    have h3 : pyInt 12 = 12 := rfl
    have h4 : pyRange 12 3 = [0, 3, 6, 9] := rfl
    simp only [split_plan, h1, h2, h3, h4]
    norm_num [min_def, List.filterMap_cons, List.filterMap_nil]
  · have h1 : (2 : ℚ) - 0 = 2 := by norm_num
    have h2 : pyInt 2 = 2 := rfl
    have h3 : pyInt 25 = 25 := rfl
    have h4 : pyRange 25 2 = [0, 2, 4, 6, 8, 10, 12, 14, 16, 18, 20, 22, 24] := rfl
    simp only [split_plan, h1, h2, h3, h4]
    norm_num [min_def, List.filterMap_cons, List.filterMap_nil]
